import Mathlib

/-!
Verification of the ochenslab crate (src/src/lib.rs): a fixed-capacity slab
container `OchenSlab<T>` backed by a vector of optional slots plus a free-list
of empty-slot indices.

Embedding conventions:
* `storage : Vec<Option<T>>` becomes `storage : List (Option T)`; Rust's
  `storage.get(i)` / `storage.get_mut(i)` bounds-checked lookups become
  `storage[i]?`, and writing through a successful `get_mut` becomes
  `List.set`.
* `free : Vec<usize>` is a stack that pushes and pops at the END of the Rust
  vector.  We model the stack with the LIST HEAD as the stack top (the Rust
  vector's end), so Rust `free.pop()` is a head-pattern match and Rust
  `free.push(i)` is `i :: free`.  Consequently the free vector built by
  `with_capacity` — `[capacity-1-0, capacity-1-1, …, 0]` in Rust storage
  order — is written here as its reversal.
* `usize` becomes `Nat`.  The one `usize` subtraction, in `len`, is modelled
  by truncated `Nat` subtraction; the no-underflow fact is proved separately.
* Rust's `?` early returns on `Option` become explicit `match`/`if` branches
  that return `none` together with the state as mutated so far.
-/

/-- The slab state: primary storage for items plus the storage for free
indices (fields of `OchenSlab` in src/src/lib.rs, lines 30-36). -/
structure OchenSlab (T : Type) where
  storage : List (Option T)
  free : List Nat
deriving DecidableEq

namespace OchenSlab

variable {T : Type}

/-- Rust `with_capacity` (lib.rs lines 41-55): `storage` is `capacity` copies
of `None`; the free vector is filled by `resize_with` with the closure
yielding `capacity - 1 - i` at the i-th call, i.e. `[capacity-1, …, 1, 0]` in
Rust storage order; since our list head is the vector's end, we take the
reversal of that list. -/
def with_capacity (T : Type) (capacity : Nat) : OchenSlab T :=
  { storage := List.replicate capacity none,
    free := ((List.range capacity).map (fun i => capacity - 1 - i)).reverse }

/-- Rust `len` (lib.rs lines 58-60): `storage.len() - free.len()` on `usize`,
modelled with truncated `Nat` subtraction. -/
def len (s : OchenSlab T) : Nat :=
  s.storage.length - s.free.length

/-- Rust `get` (lib.rs lines 63-65): `self.storage.get(index)?.as_ref()`.
It takes `&self`, so it cannot change the state; we model it as a pure
lookup returning the (optional) slot content. -/
def get (s : OchenSlab T) (index : Nat) : Option T :=
  match s.storage[index]? with
  | none => none
  | some slot => slot

/-- Rust `get_mut` (lib.rs lines 68-70): same lookup as `get`, through
`&mut self`; the call itself performs no mutation, so the returned state is
the input state. -/
def get_mut (s : OchenSlab T) (index : Nat) : Option T × OchenSlab T :=
  (match s.storage[index]? with
   | none => none
   | some slot => slot, s)

/-- Rust `insert` (lib.rs lines 77-81):
`let index = self.free.pop()?;` — if the free list is empty return `None`
with the state unchanged; otherwise
`*self.storage.get_mut(index)? = Some(t);` — if the popped index is out of
range the `?` returns `None` with the pop already performed; otherwise store
the value and return the index. -/
def insert (s : OchenSlab T) (t : T) : Option Nat × OchenSlab T :=
  match s.free with
  | [] => (none, s)
  | index :: rest =>
    if index < s.storage.length then
      (some index, { storage := s.storage.set index (some t), free := rest })
    else
      (none, { s with free := rest })

/-- Rust `remove` (lib.rs lines 85-89):
`let value = self.storage.get_mut(index)?.take()?;` — out-of-range index
returns `None` unchanged; `take` writes `None` into the slot and yields the
old content, and if that was `None` the second `?` returns `None` (the write
of `None` over `None` is included for fidelity); otherwise push the index
onto the free list and return the value. -/
def remove (s : OchenSlab T) (index : Nat) : Option T × OchenSlab T :=
  match s.storage[index]? with
  | none => (none, s)
  | some none => (none, { s with storage := s.storage.set index none })
  | some (some v) =>
    (some v, { storage := s.storage.set index none, free := index :: s.free })

/-- A sequence of `insert` calls, recording each call's returned index. -/
def insertMany (s : OchenSlab T) : List T → List (Option Nat) × OchenSlab T
  | [] => ([], s)
  | t :: ts =>
    let r := insert s t
    let rs := insertMany r.2 ts
    (r.1 :: rs.1, rs.2)

/-- The representation invariant of the slab (spec invariants I1-I3): the
free list has no duplicates, contains only in-range indices, contains exactly
the indices of `None` slots, and its length plus the number of occupied
slots is the storage length. -/
def Inv (s : OchenSlab T) : Prop :=
  s.free.Nodup ∧
  (∀ j ∈ s.free, j < s.storage.length) ∧
  (∀ i, i < s.storage.length → (i ∈ s.free ↔ s.storage[i]? = some none)) ∧
  s.free.length + s.storage.countP (fun o => o.isSome) = s.storage.length

/-- States reachable from `with_capacity capacity` by any sequence of the
state-touching public operations.  `get` takes `&self` and is modelled as a
pure function, so it needs no step; `get_mut` is included (it returns the
state unchanged). -/
inductive Reachable (T : Type) (C : Nat) : OchenSlab T → Prop where
  | init : Reachable T C (with_capacity T C)
  | step_insert (s : OchenSlab T) (t : T) :
      Reachable T C s → Reachable T C (insert s t).2
  | step_remove (s : OchenSlab T) (i : Nat) :
      Reachable T C s → Reachable T C (remove s i).2
  | step_get_mut (s : OchenSlab T) (i : Nat) :
      Reachable T C s → Reachable T C (get_mut s i).2

/-! ## List helper lemmas -/

theorem range_map_sub (n : Nat) :
    (List.range n).map (fun i => n - 1 - i) = (List.range n).reverse := by
  induction n with
  | zero => simp
  | succ m ih =>
    calc (List.range (m + 1)).map (fun i => m + 1 - 1 - i)
        = (0 :: (List.range m).map Nat.succ).map (fun i => m - i) := by
          rw [List.range_succ_eq_map]
          simp only [Nat.add_sub_cancel]
      _ = m :: (List.range m).map (fun i => m - 1 - i) := by
          simp only [List.map_cons, Nat.sub_zero, List.map_map]
          refine congrArg _ (List.map_congr_left ?_)
          intro a _
          simp only [Function.comp]
          omega
      _ = m :: (List.range m).reverse := by rw [ih]
      _ = (List.range (m + 1)).reverse := by rw [List.range_succ]; simp

/-- The free list of a fresh slab, in our head-is-top representation, is
`[0, 1, …, capacity-1]`. -/
theorem with_capacity_free (C : Nat) :
    (with_capacity T C).free = List.range C := by
  show ((List.range C).map (fun i => C - 1 - i)).reverse = List.range C
  rw [range_map_sub, List.reverse_reverse]

theorem with_capacity_storage (C : Nat) :
    (with_capacity T C).storage = List.replicate C none := rfl

theorem set_eq_self_of_getElem? {α : Type} (l : List α) (i : Nat) (a : α)
    (h : l[i]? = some a) : l.set i a = l := by
  induction l generalizing i with
  | nil => simp at h
  | cons x t ih =>
    cases i with
    | zero => simp at h; simp [h]
    | succ j =>
      simp only [List.getElem?_cons_succ] at h
      simp [List.set, ih j h]

theorem countP_set_add {α : Type} (p : α → Bool) (l : List α) (i : Nat)
    (a b : α) (hb : l[i]? = some b) :
    (l.set i a).countP p + (if p b then 1 else 0)
      = l.countP p + (if p a then 1 else 0) := by
  induction l generalizing i with
  | nil => simp at hb
  | cons x t ih =>
    cases i with
    | zero =>
      simp only [List.getElem?_cons_zero, Option.some.injEq] at hb
      subst hb
      simp only [List.set, List.countP_cons]
      omega
    | succ j =>
      simp only [List.getElem?_cons_succ] at hb
      have := ih j hb
      simp only [List.set, List.countP_cons]
      omega

theorem set_append_right {α : Type} (l l' : List α) (i : Nat) (a : α) :
    (l ++ l').set (l.length + i) a = l ++ l'.set i a := by
  induction l with
  | nil => simp
  | cons x t ih => simp [Nat.succ_add, List.set, ih]

theorem countP_isSome_replicate_none (n : Nat) :
    (List.replicate n (none : Option T)).countP (fun o => o.isSome) = 0 := by
  induction n with
  | zero => simp
  | succ m ih => simp [List.replicate_succ, List.countP_cons, ih]

/-! ## Invariant machinery -/

theorem Inv.mem_free_iff {s : OchenSlab T} (h : Inv s) (i : Nat) :
    i ∈ s.free ↔ s.storage[i]? = some none := by
  by_cases hi : i < s.storage.length
  · exact h.2.2.1 i hi
  · constructor
    · intro hm
      exact absurd (h.2.1 i hm) hi
    · intro he
      rw [List.getElem?_eq_none (Nat.le_of_not_lt hi)] at he
      exact absurd he (by simp)

theorem Inv_with_capacity (C : Nat) : Inv (with_capacity T C) := by
  refine ⟨?_, ?_, ?_, ?_⟩
  · rw [with_capacity_free]
    exact List.nodup_range C
  · intro j hj
    rw [with_capacity_free] at hj
    simpa [with_capacity_storage] using List.mem_range.1 hj
  · intro i hi
    rw [with_capacity_storage, List.length_replicate] at hi
    rw [with_capacity_free, with_capacity_storage]
    simp [List.mem_range, hi, List.getElem?_replicate]
  · rw [with_capacity_free, with_capacity_storage]
    simp [countP_isSome_replicate_none]

theorem storage_length_insert (s : OchenSlab T) (t : T) :
    ((insert s t).2).storage.length = s.storage.length := by
  cases hf : s.free with
  | nil => simp [insert, hf]
  | cons k rest =>
    by_cases hk : k < s.storage.length
    · simp [insert, hf, hk]
    · simp [insert, hf, hk]

theorem storage_length_remove (s : OchenSlab T) (i : Nat) :
    ((remove s i).2).storage.length = s.storage.length := by
  cases hs : s.storage[i]? with
  | none => simp [remove, hs]
  | some slot =>
    cases slot with
    | none => simp [remove, hs]
    | some v => simp [remove, hs]

theorem Inv_insert {s : OchenSlab T} (h : Inv s) (t : T) : Inv (insert s t).2 := by
  cases hf : s.free with
  | nil =>
    simpa [insert, hf] using h
  | cons k rest =>
    have hk : k ∈ s.free := by rw [hf]; exact List.mem_cons_self k rest
    have hklt : k < s.storage.length := h.2.1 k hk
    have hkN : s.storage[k]? = some none := (h.mem_free_iff k).1 hk
    have hknr : k ∉ rest := by
      have := h.1
      rw [hf] at this
      exact (List.nodup_cons.1 this).1
    have hrest : ∀ j ∈ rest, j ∈ s.free := by
      intro j hj
      rw [hf]
      exact List.mem_cons_of_mem k hj
    simp only [insert, hf, if_pos hklt]
    refine ⟨?_, ?_, ?_, ?_⟩
    · have := h.1
      rw [hf] at this
      exact (List.nodup_cons.1 this).2
    · intro j hj
      simpa [List.length_set] using h.2.1 j (hrest j hj)
    · intro i hi
      show i ∈ rest ↔ (s.storage.set k (some t))[i]? = some none
      replace hi : i < s.storage.length := by
        simpa [List.length_set] using hi
      by_cases hik : i = k
      · subst hik
        rw [List.getElem?_set_self hklt]
        simp [hknr]
      · rw [List.getElem?_set_ne (fun he => hik he.symm)]
        constructor
        · intro hir
          exact ((h.2.2.1 i hi).1 (hrest i hir))
        · intro hiN
          have : i ∈ s.free := (h.mem_free_iff i).2 hiN
          rw [hf] at this
          rcases List.mem_cons.1 this with he | hm
          · exact absurd he hik
          · exact hm
    · show rest.length + (s.storage.set k (some t)).countP (fun o => o.isSome)
        = (s.storage.set k (some t)).length
      have hc := countP_set_add (fun o => o.isSome) s.storage k (some t) none hkN
      have h4 := h.2.2.2
      rw [hf] at h4
      simp only [List.length_cons] at h4
      simp only [Option.isSome_none, Option.isSome_some] at hc
      simp only [if_true, if_false, Bool.false_eq_true] at hc
      rw [List.length_set]
      omega

theorem Inv_remove {s : OchenSlab T} (h : Inv s) (i : Nat) : Inv (remove s i).2 := by
  cases hs : s.storage[i]? with
  | none => simpa [remove, hs] using h
  | some slot =>
    cases slot with
    | none =>
      have hset : s.storage.set i none = s.storage :=
        set_eq_self_of_getElem? s.storage i none hs
      simpa [remove, hs, hset] using h
    | some v =>
      have hlt : i < s.storage.length := by
        by_contra hge
        rw [List.getElem?_eq_none (Nat.le_of_not_lt hge)] at hs
        exact absurd hs (by simp)
      have hnm : i ∉ s.free := by
        intro hm
        have := (h.mem_free_iff i).1 hm
        rw [hs] at this
        exact absurd this (by simp)
      simp only [remove, hs]
      refine ⟨?_, ?_, ?_, ?_⟩
      · show (i :: s.free).Nodup
        exact List.nodup_cons.2 ⟨hnm, h.1⟩
      · intro j hj
        show j < (s.storage.set i none).length
        rw [List.length_set]
        rcases List.mem_cons.1 hj with he | hm
        · exact he ▸ hlt
        · exact h.2.1 j hm
      · intro m hm
        show m ∈ i :: s.free ↔ (s.storage.set i none)[m]? = some none
        replace hm : m < s.storage.length := by
          simpa [List.length_set] using hm
        by_cases hmi : m = i
        · subst hmi
          rw [List.getElem?_set_self hlt]
          simp
        · rw [List.getElem?_set_ne (fun he => hmi he.symm)]
          rw [List.mem_cons]
          constructor
          · intro hc
            rcases hc with he | hmem
            · exact absurd he hmi
            · exact (h.2.2.1 m hm).1 hmem
          · intro hN
            exact Or.inr ((h.2.2.1 m hm).2 hN)
      · show (i :: s.free).length + (s.storage.set i none).countP (fun o => o.isSome)
          = (s.storage.set i none).length
        have hc := countP_set_add (fun o => o.isSome) s.storage i none (some v) hs
        have h4 := h.2.2.2
        simp only [Option.isSome_none, Option.isSome_some] at hc
        simp only [if_true, if_false, Bool.false_eq_true] at hc
        rw [List.length_set, List.length_cons]
        omega

/-- Every reachable state has storage of length `C` and satisfies the
representation invariant. -/
theorem reachable_inv {C : Nat} {s : OchenSlab T} (h : Reachable T C s) :
    s.storage.length = C ∧ Inv s := by
  induction h with
  | init =>
    exact ⟨by simp [with_capacity_storage], Inv_with_capacity C⟩
  | step_insert s t _ ih =>
    exact ⟨by rw [storage_length_insert, ih.1], Inv_insert ih.2 t⟩
  | step_remove s i _ ih =>
    exact ⟨by rw [storage_length_remove, ih.1], Inv_remove ih.2 i⟩
  | step_get_mut s i _ ih =>
    exact ih

theorem lt_length_of_getElem?_some {α : Type} (l : List α) (i : Nat) (a : α)
    (h : l[i]? = some a) : i < l.length := by
  by_contra hge
  rw [List.getElem?_eq_none (Nat.le_of_not_lt hge)] at h
  exact absurd h (by simp)

/-! ## Claim theorems -/

/-- C1: for every allocator state and distinct indices `j ≠ k`, an `insert`
that stores into slot `k` and a `remove k` both leave the content and
occupancy of slot `j` (its entry in `storage`) unchanged. -/
theorem insert_remove_frame (s : OchenSlab T) (t : T) (j k : Nat) (hjk : j ≠ k) :
    ((insert s t).1 = some k →
      ((insert s t).2).storage[j]? = s.storage[j]?) ∧
    ((remove s k).2).storage[j]? = s.storage[j]? := by
  constructor
  · intro h
    cases hf : s.free with
    | nil => simp [insert, hf] at h
    | cons a rest =>
      by_cases ha : a < s.storage.length
      · have hak : a = k := by simpa [insert, hf, ha] using h
        subst hak
        have h2 : ((insert s t).2).storage = s.storage.set a (some t) := by
          simp [insert, hf, ha]
        rw [h2]
        exact List.getElem?_set_ne (Ne.symm hjk)
      · simp [insert, hf, ha] at h
  · cases hs : s.storage[k]? with
    | none => simp [remove, hs]
    | some slot =>
      cases slot with
      | none =>
        have h2 : ((remove s k).2).storage = s.storage.set k none := by
          simp [remove, hs]
        rw [h2]
        exact List.getElem?_set_ne (Ne.symm hjk)
      | some v =>
        have h2 : ((remove s k).2).storage = s.storage.set k none := by
          simp [remove, hs]
        rw [h2]
        exact List.getElem?_set_ne (Ne.symm hjk)

/-- C1 witness: on a concrete state, inserting into slot 1 and removing
slot 1 both leave slot 0 intact. -/
theorem insert_remove_frame_witness :
    ((insert (⟨[some 10, none], [1]⟩ : OchenSlab Nat) 9).2).storage[0]?
      = some (some 10) ∧
    ((remove (⟨[some 10, some 20], []⟩ : OchenSlab Nat) 1).2).storage[0]?
      = some (some 10) := by
  constructor
  · rw [(insert_remove_frame (⟨[some 10, none], [1]⟩ : OchenSlab Nat) 9 0 1
      (by decide)).1 (by decide)]
    decide
  · rw [(insert_remove_frame (⟨[some 10, some 20], []⟩ : OchenSlab Nat) 9 0 1
      (by decide)).2]
    decide

/-- C4: `remove i` returns `none` and leaves the state unchanged when `i` is
out of range or slot `i` is empty; otherwise it returns the stored value,
empties slot `i`, pushes `i` onto the free list, and `len` decreases by
exactly one. -/
theorem remove_spec (s : OchenSlab T) (i : Nat) :
    ((s.storage.length ≤ i ∨ s.storage[i]? = some none) →
      remove s i = (none, s)) ∧
    (∀ v, s.storage[i]? = some (some v) →
      (remove s i).1 = some v ∧
      ((remove s i).2).storage[i]? = some none ∧
      ((remove s i).2).free = i :: s.free ∧
      len (remove s i).2 = len s - 1 ∧
      (s.free.length < s.storage.length → len s = len (remove s i).2 + 1)) := by
  constructor
  · intro hcase
    rcases hcase with hge | hnone
    · have h0 : s.storage[i]? = none := List.getElem?_eq_none hge
      simp [remove, h0]
    · have hset : s.storage.set i none = s.storage :=
        set_eq_self_of_getElem? s.storage i none hnone
      simp [remove, hnone, hset]
  · intro v hv
    have hlt : i < s.storage.length := lt_length_of_getElem?_some s.storage i (some v) hv
    have h2 : (remove s i).2
        = (⟨s.storage.set i none, i :: s.free⟩ : OchenSlab T) := by
      simp [remove, hv]
    refine ⟨by simp [remove, hv], ?_, ?_, ?_, ?_⟩
    · rw [h2]
      exact List.getElem?_set_self hlt
    · rw [h2]
    · rw [h2]
      show (s.storage.set i none).length - (i :: s.free).length = len s - 1
      rw [List.length_set, List.length_cons, len]
      omega
    · intro hfl
      rw [h2]
      show len s = (s.storage.set i none).length - (i :: s.free).length + 1
      rw [List.length_set, List.length_cons, len]
      omega

/-- C4 witness: a concrete out-of-range `remove` is a no-op, and a concrete
successful `remove` returns the value and drops `len` by one. -/
theorem remove_spec_witness :
    remove (⟨[some 3, none], [1]⟩ : OchenSlab Nat) 5
      = (none, ⟨[some 3, none], [1]⟩) ∧
    (remove (⟨[some 3, none], [1]⟩ : OchenSlab Nat) 0).1 = some 3 ∧
    len (⟨[some 3, none], [1]⟩ : OchenSlab Nat)
      = len (remove (⟨[some 3, none], [1]⟩ : OchenSlab Nat) 0).2 + 1 := by
  refine ⟨(remove_spec (⟨[some 3, none], [1]⟩ : OchenSlab Nat) 5).1 (Or.inl (by decide)),
    ((remove_spec (⟨[some 3, none], [1]⟩ : OchenSlab Nat) 0).2 3 (by decide)).1,
    ((remove_spec (⟨[some 3, none], [1]⟩ : OchenSlab Nat) 0).2 3 (by decide)).2.2.2.2
      (by decide)⟩

/-- C6: `get i` (and `get_mut i`) succeeds exactly when `i` is in range and
slot `i` is occupied; it returns `none` exactly when `i` is out of range or
slot `i` is empty, with no distinction between the two failure cases; and
neither call changes the state (`get` is modelled as a pure function since it
takes `&self`; `get_mut` returns the state unchanged). -/
theorem get_spec (s : OchenSlab T) (i : Nat) :
    ((∃ v, get s i = some v)
      ↔ (i < s.storage.length ∧ ∃ v, s.storage[i]? = some (some v))) ∧
    (get s i = none ↔ (s.storage.length ≤ i ∨ s.storage[i]? = some none)) ∧
    (get_mut s i).1 = get s i ∧
    (get_mut s i).2 = s := by
  refine ⟨?_, ?_, rfl, rfl⟩
  · cases hs : s.storage[i]? with
    | none => simp [get, hs]
    | some slot =>
      have hlt : i < s.storage.length := lt_length_of_getElem?_some s.storage i slot hs
      cases slot with
      | none => simp [get, hs]
      | some v => simp [get, hs, hlt]
  · cases hs : s.storage[i]? with
    | none =>
      have hge : s.storage.length ≤ i := List.getElem?_eq_none_iff.1 hs
      simp [get, hs, hge]
    | some slot =>
      have hlt : i < s.storage.length := lt_length_of_getElem?_some s.storage i slot hs
      cases slot with
      | none => simp [get, hs]
      | some v => simp [get, hs, Nat.not_le.2 hlt]

/-- C7: LIFO reuse — if `remove i` succeeds, the next `insert` returns
index `i`. -/
theorem lifo_reuse (s : OchenSlab T) (i : Nat) (v : T) (t : T)
    (h : (remove s i).1 = some v) :
    (insert (remove s i).2 t).1 = some i := by
  cases hs : s.storage[i]? with
  | none => simp [remove, hs] at h
  | some slot =>
    cases slot with
    | none => simp [remove, hs] at h
    | some w =>
      have hlt : i < s.storage.length :=
        lt_length_of_getElem?_some s.storage i (some w) hs
      have h2 : (remove s i).2
          = (⟨s.storage.set i none, i :: s.free⟩ : OchenSlab T) := by
        simp [remove, hs]
      rw [h2]
      have hlt2 : i < (s.storage.set i none).length := by
        rw [List.length_set]
        exact hlt
      simp [insert, hlt2, hlt]

/-- C7 witness: removing slot 1 from a concrete full slab and then inserting
yields index 1 again. -/
theorem lifo_reuse_witness :
    (insert (remove (⟨[some 4, some 5], []⟩ : OchenSlab Nat) 1).2 9).1
      = some 1 :=
  lifo_reuse (⟨[some 4, some 5], []⟩ : OchenSlab Nat) 1 5 9 (by decide)

/-- C8: round trip — if `insert v` returns index `i`, then `get i` on the
resulting state returns `v`. -/
theorem round_trip (s : OchenSlab T) (v : T) (i : Nat)
    (h : (insert s v).1 = some i) :
    get (insert s v).2 i = some v := by
  cases hf : s.free with
  | nil => simp [insert, hf] at h
  | cons k rest =>
    by_cases hk : k < s.storage.length
    · have hki : k = i := by simpa [insert, hf, hk] using h
      subst hki
      have h2 : (insert s v).2
          = (⟨s.storage.set k (some v), rest⟩ : OchenSlab T) := by
        simp [insert, hf, hk]
      rw [h2]
      simp [get, List.getElem?_set_self hk]
    · simp [insert, hf, hk] at h

/-- C8 witness: inserting 42 into a fresh capacity-1 slab yields index 0 and
`get 0` returns 42. -/
theorem round_trip_witness :
    get (insert (with_capacity Nat 1) 42).2 0 = some 42 :=
  round_trip (with_capacity Nat 1) 42 0 (by decide)

/-- C9: when `insert` returns `none` — which, in any state whose free indices
are all in range, happens exactly when the free list is empty — the state is
completely unchanged. -/
theorem insert_none_atomic (s : OchenSlab T) (t : T)
    (hfree : ∀ j ∈ s.free, j < s.storage.length)
    (h : (insert s t).1 = none) :
    (insert s t).2 = s ∧ s.free = [] := by
  cases hf : s.free with
  | nil => exact ⟨by simp [insert, hf], rfl⟩
  | cons k rest =>
    have hk : k < s.storage.length :=
      hfree k (by rw [hf]; exact List.mem_cons_self k rest)
    simp [insert, hf, hk] at h

/-- C9 witness: a failing `insert` on a concrete full slab leaves the state
unchanged. -/
theorem insert_none_atomic_witness :
    (insert (⟨[some 1], []⟩ : OchenSlab Nat) 2).2 = ⟨[some 1], []⟩ ∧
    (⟨[some 1], ([] : List Nat)⟩ : OchenSlab Nat).free = [] :=
  insert_none_atomic (⟨[some 1], []⟩ : OchenSlab Nat) 2 (by decide) (by decide)

/-- C2: in every state reachable from `with_capacity C` by any sequence of
`insert`/`remove`/`get`/`get_mut` calls, the storage has length `C`, the
representation invariant holds — the free list lists exactly the `None`-slot
indices of `0..C`, each exactly once and no `Some`-slot index — and `len`
equals `C` minus the free-list length, which is the number of `Some` slots. -/
theorem reachable_invariants {C : Nat} {s : OchenSlab T} (h : Reachable T C s) :
    s.storage.length = C ∧
    Inv s ∧
    (∀ i, i ∈ s.free ↔ s.storage[i]? = some none) ∧
    len s = C - s.free.length ∧
    len s = s.storage.countP (fun o => o.isSome) := by
  obtain ⟨hlen, hinv⟩ := reachable_inv h
  refine ⟨hlen, hinv, hinv.mem_free_iff, ?_, ?_⟩
  · rw [len, hlen]
  · have h4 := hinv.2.2.2
    rw [len]
    omega

/-- C2 witness: the invariants at the concrete reachable state obtained by
one `insert` on a fresh capacity-2 slab. -/
theorem reachable_invariants_witness :
    ((insert (with_capacity Nat 2) 7).2).storage.length = 2 ∧
    Inv (insert (with_capacity Nat 2) 7).2 ∧
    (∀ i, i ∈ ((insert (with_capacity Nat 2) 7).2).free ↔
      ((insert (with_capacity Nat 2) 7).2).storage[i]? = some none) ∧
    len (insert (with_capacity Nat 2) 7).2
      = 2 - ((insert (with_capacity Nat 2) 7).2).free.length ∧
    len (insert (with_capacity Nat 2) 7).2
      = ((insert (with_capacity Nat 2) 7).2).storage.countP (fun o => o.isSome) :=
  reachable_invariants (Reachable.step_insert (with_capacity Nat 2) 7 Reachable.init)

/-- C10: in every reachable state the free-list length never exceeds the
storage length (so the `usize` subtraction in `len` cannot underflow) and
every free index is in range; hence whenever the pop in `insert` succeeds,
the subsequent store also succeeds (the early return on
`storage.get_mut(index)` is never taken) and `insert` returns the popped
index. -/
theorem free_bounds {C : Nat} {s : OchenSlab T} (h : Reachable T C s) :
    s.free.length ≤ s.storage.length ∧
    (∀ j ∈ s.free, j < s.storage.length) ∧
    (∀ k rest, s.free = k :: rest → k < s.storage.length) ∧
    (∀ (t : T) (k : Nat) (rest : List Nat),
      s.free = k :: rest → (insert s t).1 = some k) := by
  obtain ⟨hlen, hinv⟩ := reachable_inv h
  have h4 := hinv.2.2.2
  refine ⟨by omega, hinv.2.1, ?_, ?_⟩
  · intro k rest hf
    exact hinv.2.1 k (by rw [hf]; exact List.mem_cons_self k rest)
  · intro t k rest hf
    have hk : k < s.storage.length :=
      hinv.2.1 k (by rw [hf]; exact List.mem_cons_self k rest)
    simp [insert, hf, hk]

/-- C10 witness: the bounds at the concrete reachable fresh capacity-2 slab,
whose free list is nonempty. -/
theorem free_bounds_witness :
    (with_capacity Nat 2).free.length ≤ (with_capacity Nat 2).storage.length ∧
    (∀ j ∈ (with_capacity Nat 2).free, j < (with_capacity Nat 2).storage.length) ∧
    (∀ k rest, (with_capacity Nat 2).free = k :: rest →
      k < (with_capacity Nat 2).storage.length) ∧
    (∀ (t : Nat) (k : Nat) (rest : List Nat),
      (with_capacity Nat 2).free = k :: rest →
      (insert (with_capacity Nat 2) t).1 = some k) :=
  free_bounds Reachable.init

theorem set_append_len {α : Type} (l l' : List α) (a : α) :
    (l ++ l').set l.length a = l ++ l'.set 0 a := by
  have h := set_append_right l l' 0 a
  rw [Nat.add_zero] at h
  exact h

/-- Running `insertMany` from a partially filled prefix state: the storage is
a fully occupied prefix `done` followed by empty slots, and the free list
holds the indices of the empty suffix in ascending order.  Each insert fills
the next slot and returns its index. -/
theorem insertMany_aux (ts : List T) (done : List (Option T)) (m : Nat)
    (hm : ts.length ≤ m) :
    insertMany
        (⟨done ++ List.replicate m none, List.range' done.length m⟩ : OchenSlab T) ts
      = ((List.range' done.length ts.length).map some,
         ⟨done ++ (ts.map some ++ List.replicate (m - ts.length) none),
          List.range' (done.length + ts.length) (m - ts.length)⟩) := by
  induction ts generalizing done m with
  | nil => simp [insertMany]
  | cons t ts ih =>
    have hm1 : ts.length + 1 ≤ m := by simpa using hm
    obtain ⟨m0, rfl⟩ : ∃ m0, m = m0 + 1 := ⟨m - 1, by omega⟩
    have hfree : List.range' done.length (m0 + 1)
        = done.length :: List.range' (done.length + 1) m0 :=
      List.range'_succ done.length m0 1
    have hlt : done.length
        < (done ++ List.replicate (m0 + 1) (none : Option T)).length := by
      simp
    have hset : (done ++ List.replicate (m0 + 1) (none : Option T)).set
          done.length (some t)
        = (done ++ [some t]) ++ List.replicate m0 none := by
      rw [List.replicate_succ, set_append_len]
      simp [List.append_assoc]
    have hins : insert
          (⟨done ++ List.replicate (m0 + 1) none,
            List.range' done.length (m0 + 1)⟩ : OchenSlab T) t
        = (some done.length,
           ⟨(done ++ [some t]) ++ List.replicate m0 none,
            List.range' (done.length + 1) m0⟩) := by
      simp only [insert, hfree]
      rw [if_pos hlt, hset]
    simp only [insertMany]
    rw [hins]
    have hlen1 : (done ++ [some t]).length = done.length + 1 := by simp
    have iha := ih (done ++ [some t]) m0 (by omega)
    rw [hlen1] at iha
    rw [iha]
    simp only [Prod.mk.injEq, OchenSlab.mk.injEq, List.length_cons, List.map_cons]
    refine ⟨?_, ?_, ?_⟩
    · rw [List.range'_succ done.length ts.length 1]
      simp
    · simp [List.append_assoc, Nat.succ_sub_succ]
    · have harg1 : done.length + 1 + ts.length = done.length + (ts.length + 1) := by
        omega
      have harg2 : m0 - ts.length = m0 + 1 - (ts.length + 1) := by omega
      rw [harg1, harg2]

/-- `insertMany` on a fresh slab of capacity at least `ts.length` fills the
slots `0, 1, 2, …` in order and returns those indices. -/
theorem insertMany_fresh (C : Nat) (ts : List T) (h : ts.length ≤ C) :
    insertMany (with_capacity T C) ts
      = ((List.range ts.length).map some,
         ⟨ts.map some ++ List.replicate (C - ts.length) none,
          List.range' ts.length (C - ts.length)⟩) := by
  have hwc : with_capacity T C
      = (⟨[] ++ List.replicate C none, List.range' ([] : List (Option T)).length C⟩
          : OchenSlab T) := by
    simp only [with_capacity, List.nil_append, List.length_nil]
    rw [range_map_sub, List.reverse_reverse, List.range_eq_range']
  rw [hwc, insertMany_aux ts [] C h]
  simp [List.range_eq_range']

/-- `insertMany` distributes over list append. -/
theorem insertMany_append (s : OchenSlab T) (ts1 ts2 : List T) :
    insertMany s (ts1 ++ ts2)
      = ((insertMany s ts1).1 ++ (insertMany (insertMany s ts1).2 ts2).1,
         (insertMany (insertMany s ts1).2 ts2).2) := by
  induction ts1 generalizing s with
  | nil => simp [insertMany]
  | cons t ts ih => simp [insertMany, ih]

/-- On a slab whose free list is empty, every `insert` fails and the state
never changes. -/
theorem insertMany_full (s : OchenSlab T) (hf : s.free = []) (ts : List T) :
    insertMany s ts = (ts.map (fun _ => none), s) := by
  induction ts with
  | nil => simp [insertMany]
  | cons t ts ih =>
    have h1 : insert s t = (none, s) := by simp [insert, hf]
    simp [insertMany, h1, ih]

/-- C5: on a fresh slab of capacity `C`, successive inserts return ascending
indices starting at 0 — the k-th successful insert (1-based) returns
index k-1. -/
theorem fresh_insert_ascending (C : Nat) (ts : List T) (h : ts.length ≤ C) :
    ∀ i, i < ts.length →
      (insertMany (with_capacity T C) ts).1[i]? = some (some i) := by
  intro i hi
  rw [insertMany_fresh C ts h]
  show ((List.range ts.length).map some)[i]? = some (some i)
  rw [List.getElem?_map]
  simp [List.getElem?_range, hi]

/-- C5 witness: on a fresh capacity-2 slab, the second insert returns
index 1. -/
theorem fresh_insert_ascending_witness :
    (insertMany (with_capacity Nat 2) [10, 20]).1[1]? = some (some 1) :=
  fresh_insert_ascending 2 [10, 20] (by decide) 1 (by decide)

/-- C3: on a fresh slab of capacity `C`, the first `C` inserts all return
`some`, the (C+1)-th insert returns `none`, and `len` is `C` at that
point. -/
theorem capacity_ceiling (C : Nat) (ts : List T) (h : ts.length = C + 1) :
    (∀ i, i < C → ∃ j, (insertMany (with_capacity T C) ts).1[i]? = some (some j)) ∧
    (insertMany (with_capacity T C) ts).1[C]? = some none ∧
    len (insertMany (with_capacity T C) ts).2 = C := by
  have hne : ts ≠ [] := by
    intro he
    rw [he] at h
    simp at h
  obtain ⟨ts0, tl, rfl⟩ : ∃ ts0 tl, ts = ts0 ++ [tl] :=
    ⟨ts.dropLast, ts.getLast hne, (List.dropLast_append_getLast hne).symm⟩
  have hlen0 : ts0.length = C := by
    have := h
    simp only [List.length_append, List.length_cons, List.length_nil] at this
    omega
  have hfresh := insertMany_fresh C ts0 (by omega)
  rw [hlen0] at hfresh
  simp only [Nat.sub_self, List.replicate_zero, List.append_nil, List.range'_zero]
    at hfresh
  have hfull := insertMany_full
    (⟨ts0.map some, []⟩ : OchenSlab T) rfl [tl]
  rw [insertMany_append, hfresh, hfull]
  have hmaplen : ((List.range C).map (some : Nat → Option Nat)).length = C := by
    simp
  refine ⟨?_, ?_, ?_⟩
  · intro i hi
    refine ⟨i, ?_⟩
    show (((List.range C).map some) ++ [tl].map (fun _ => none))[i]? = some (some i)
    rw [List.getElem?_append]
    rw [if_pos (by rw [hmaplen]; exact hi)]
    rw [List.getElem?_map]
    simp [List.getElem?_range, hi]
  · show (((List.range C).map some) ++ [tl].map (fun _ => none))[C]? = some none
    rw [List.getElem?_append]
    rw [if_neg (by rw [hmaplen]; omega)]
    rw [hmaplen]
    simp
  · show len (⟨ts0.map some, []⟩ : OchenSlab T) = C
    show (ts0.map some).length - ([] : List Nat).length = C
    simp [hlen0]

/-- C3 witness: on a fresh capacity-2 slab, three inserts return
`some`, `some`, `none`, and `len` ends at 2. -/
theorem capacity_ceiling_witness :
    (∃ j, (insertMany (with_capacity Nat 2) [5, 6, 7]).1[0]? = some (some j)) ∧
    (insertMany (with_capacity Nat 2) [5, 6, 7]).1[2]? = some none ∧
    len (insertMany (with_capacity Nat 2) [5, 6, 7]).2 = 2 := by
  have h := capacity_ceiling 2 [5, 6, 7] (by decide)
  exact ⟨h.1 0 (by decide), h.2.1, h.2.2⟩
